import Mathlib

/-!
Verification of the Mini_NotebookLM retrieval core: a shallow embedding of
the chunker (`chunkText`), the in-memory vector store (`VectorStore`), the
prompt assembler (`buildPrompt`) and the retrieval orchestrator
(`getAnswerFromDocuments`, `embedChunks`, `handleFileUpload`).

Modelling conventions:
* JS strings are `List Char` (text that is sliced and measured) or `String`
  (names and fixed literals); `.length` on a JS string is modelled by list
  length (the sources never hit surrogate pairs, where JS counts UTF-16
  units).
* JS numbers are exact rationals `ℚ`.  `Math.sqrt` is not rational, so it is
  abstracted as an explicit function parameter `sqrt : ℚ → ℚ`; every theorem
  quantifies over it, so nothing proved depends on the value of the square
  root.  The degenerate branches of `cosineSimilarity` return before any
  square root is taken, so they are unaffected.
* The external embedding / completion providers are oracle function
  parameters; "issues a call to a provider" is modelled by counting calls in
  the orchestrator's result record.
* JS `Array.prototype.sort` (stable since ES2019) with the comparator
  `(a, b) => b.similarity - a.similarity` is modelled by the stable
  `List.insertionSort` with the relation "left similarity is at least right
  similarity".
* A JS plain object used as a map (`Record<string, string>`) is modelled by
  an association list of own properties in creation order, with
  `Object.entries` (`jsEntries`) reproducing the ECMAScript own-property
  order: canonical array-index keys first in ascending numeric order, then
  the remaining string keys in creation order.  The `{}` accumulator's
  prototype chain is modelled too: reading a key the object does not own but
  `Object.prototype` does (`toString`, `constructor`, …) yields the inherited
  member — truthy, and coerced to an engine-defined string (the abstract
  parameter `protoVal`) when concatenated — and assigning to `__proto__`
  goes through the inherited accessor, creating no own property.
-/

/-- `chunkText` output element: `{ source, content }` (types.ts `DocumentChunk`). -/
structure DocumentChunk where
  source : String
  content : List Char
deriving DecidableEq

/-- `DocumentChunkWithEmbedding`: a chunk plus its embedding vector. -/
structure EmbeddedChunk where
  source : String
  content : List Char
  embedding : List ℚ
deriving DecidableEq

/-- The ephemeral search result: `{...chunk, similarity}` produced by `VectorStore.search`. -/
structure ScoredChunk where
  source : String
  content : List Char
  embedding : List ℚ
  similarity : ℚ
deriving DecidableEq

/-- vectorStore.ts `cosineSimilarity`.  The one-pass loop over `i` accumulates
`dotProduct`, `normA` (sum of squares of `vecA`) and `normB`; after the length
guard the lengths are equal, so the loop is the three `zipWith` sums below.
`Math.sqrt` is the abstract parameter `sqrt`. -/
def cosineSimilarity (sqrt : ℚ → ℚ) (vecA vecB : List ℚ) : ℚ :=
  if vecA.length ≠ vecB.length then 0
  else
    let dotProduct := (List.zipWith (fun a b => a * b) vecA vecB).sum
    let normA := (List.zipWith (fun a b => a * b) vecA vecA).sum
    let normB := (List.zipWith (fun a b => a * b) vecB vecB).sum
    if normA = 0 ∨ normB = 0 then 0
    else dotProduct / (sqrt normA * sqrt normB)

/-- The squared Euclidean norm, the quantity the source's `normA`/`normB`
variables hold before `Math.sqrt` is applied.  Over exact arithmetic it is `0`
exactly when the real norm is `0` (a sum of squares vanishes iff the vector is
all-zero). -/
def sumSq (v : List ℚ) : ℚ := (List.zipWith (fun a b => a * b) v v).sum

/-- chunkText.ts: a sentence terminator of the regex `[^.!?]+[.!?]*`. -/
def isTerminator (c : Char) : Bool := c = '.' || c = '!' || c = '?'

/-- One global match of `/[^.!?]+[.!?]*/g`: the regex engine skips characters
that cannot start a match (terminators), then takes a maximal run of
non-terminators followed by a maximal run of terminators.  The recursion
consumes at least one character per emitted match, so the list length is a
sufficient fuel bound (`rawSentencesFuel_congr` below); the fuel makes the
definition structurally recursive and hence kernel-evaluable. -/
def rawSentencesFuel : Nat → List Char → List (List Char)
  | 0, _ => []
  | fuel + 1, text =>
    let rest := text.dropWhile isTerminator
    match rest with
    | [] => []
    | _ :: _ =>
      let body := rest.takeWhile (fun c => !(isTerminator c))
      let afterBody := rest.dropWhile (fun c => !(isTerminator c))
      let term := afterBody.takeWhile isTerminator
      (body ++ term) :: rawSentencesFuel fuel (afterBody.dropWhile isTerminator)

/-- `text.match(/[^.!?]+[.!?]*/g) || []`. -/
def rawSentences (text : List Char) : List (List Char) :=
  rawSentencesFuel text.length text

/-- JS `String.prototype.trim`: strip whitespace from both ends. -/
def trimChars (l : List Char) : List Char :=
  ((l.dropWhile Char.isWhitespace).reverse.dropWhile Char.isWhitespace).reverse

/-- chunkText.ts `getSentences`: match, trim each sentence, drop empties. -/
def getSentences (text : List Char) : List (List Char) :=
  ((rawSentences text).map trimChars).filter (fun s => !(s.isEmpty))

/-- JS `Array.prototype.join(' ')`. -/
def joinSp : List (List Char) → List Char
  | [] => []
  | s :: rest =>
    match rest with
    | [] => s
    | _ :: _ => s ++ ' ' :: joinSp rest

/-- The sentence-accumulation loop of `chunkText` (chunkSize = 1500,
overlapSentences = 2), including the final push of a non-empty window.
`cur` is `currentChunkSentences`; emitted chunks are the space-joined
windows, in order. -/
def chunkLoop : List (List Char) → List (List Char) → List (List Char)
  | [], cur => if cur.isEmpty then [] else [joinSp cur]
  | sentence :: rest, cur =>
    if 1500 < (joinSp cur).length + sentence.length ∧ ¬cur.isEmpty then
      joinSp cur :: chunkLoop rest ((cur.drop (cur.length - 2)) ++ [sentence])
    else
      chunkLoop rest (cur ++ [sentence])

/-- chunkText.ts `chunkText(sourceName, text)`. -/
def chunkText (sourceName : String) (text : List Char) : List DocumentChunk :=
  let sentences := getSentences text
  if text.length < 1500 then [{ source := sourceName, content := text }]
  else (chunkLoop sentences []).map (fun content => { source := sourceName, content := content })

/-- The same loop at the granularity of sentence windows: `windowLoop` emits
the window (list of sentences) wherever `chunkLoop` emits its space-join.
Proof device for the overlap property; `chunkLoop_eq_windowLoop` ties it to
the source loop. -/
def windowLoop : List (List Char) → List (List Char) → List (List (List Char))
  | [], cur => if cur.isEmpty then [] else [cur]
  | sentence :: rest, cur =>
    if 1500 < (joinSp cur).length + sentence.length ∧ ¬cur.isEmpty then
      cur :: windowLoop rest ((cur.drop (cur.length - 2)) ++ [sentence])
    else
      windowLoop rest (cur ++ [sentence])

/-- The finalized sentence windows of `chunkText`'s loop for a given text. -/
def chunkWindows (text : List Char) : List (List (List Char)) :=
  windowLoop (getSentences text) []

/-- The designed chunk overlap: the next window starts with the last
`min 2 (length of the previous window)` sentences of the previous window. -/
def overlapSeeded (w₁ w₂ : List (List Char)) : Prop :=
  ∃ t, w₂ = w₁.drop (w₁.length - 2) ++ t

/-- The relation the comparator `(a, b) => b.similarity - a.similarity` sorts
by: `a` may come before `b` when `a`'s similarity is at least `b`'s.  The
stable `insertionSort` by this relation keeps earlier elements before later
ones on ties, exactly as the stable JS `Array.prototype.sort` does. -/
def simGE (a b : ScoredChunk) : Prop := b.similarity ≤ a.similarity

instance : DecidableRel simGE := fun _ _ => inferInstanceAs (Decidable (_ ≤ _))

instance : IsTotal ScoredChunk simGE := ⟨fun a b => le_total b.similarity a.similarity⟩

instance : IsTrans ScoredChunk simGE := ⟨fun _ _ _ h₁ h₂ => le_trans h₂ h₁⟩

/-- `{...chunk, similarity: cosineSimilarity(queryEmbedding, chunk.embedding)}`. -/
def scoreChunk (sqrt : ℚ → ℚ) (queryEmbedding : List ℚ) (c : EmbeddedChunk) : ScoredChunk :=
  { source := c.source, content := c.content, embedding := c.embedding,
    similarity := cosineSimilarity sqrt queryEmbedding c.embedding }

/-- `scoredChunks.sort((a, b) => b.similarity - a.similarity)`: a stable sort,
descending by similarity. -/
def sortScored (l : List ScoredChunk) : List ScoredChunk := List.insertionSort simGE l

/-- The store's state is its `chunks` array, in insertion order. -/
def VectorStore.add (st : List EmbeddedChunk) (newChunks : List EmbeddedChunk) :
    List EmbeddedChunk :=
  st ++ newChunks

/-- `this.chunks = this.chunks.filter(chunk => chunk.source !== sourceName)`. -/
def VectorStore.removeBySource (sourceName : String) (st : List EmbeddedChunk) :
    List EmbeddedChunk :=
  st.filter (fun chunk => decide (chunk.source ≠ sourceName))

/-- `VectorStore.search(queryEmbedding, topK)`: score every stored chunk,
stable-sort descending by similarity, return the first `topK`. -/
def VectorStore.search (sqrt : ℚ → ℚ) (st : List EmbeddedChunk) (queryEmbedding : List ℚ)
    (topK : Nat) : List ScoredChunk :=
  (sortScored (st.map (scoreChunk sqrt queryEmbedding))).take topK

/-- The `search` method as a state transformer.  Its body builds the fresh
array `scoredChunks` with `map`, sorts that copy in place and slices it; it
never assigns to `this.chunks`, so the post-state is the pre-state. -/
def VectorStore.searchM (sqrt : ℚ → ℚ) (st : List EmbeddedChunk) (queryEmbedding : List ℚ)
    (topK : Nat) : List ScoredChunk × List EmbeddedChunk :=
  let scoredChunks := st.map (scoreChunk sqrt queryEmbedding)
  let sorted := sortScored scoredChunks
  (sorted.take topK, st)

/-- `[...new Set(list)]`: deduplication keeping the first occurrence of each
element, in encounter order.  `seen` is the set built so far. -/
def insertionDedup (seen : List String) : List String → List String
  | [] => []
  | x :: xs => if x ∈ seen then insertionDedup seen xs else x :: insertionDedup (x :: seen) xs

/-- `getSources()`: `[...new Set(this.chunks.map(chunk => chunk.source))]`. -/
def VectorStore.getSources (st : List EmbeddedChunk) : List String :=
  insertionDedup [] (st.map (fun chunk => chunk.source))

/-- `hasSource(sourceName)`: `this.getSources().includes(sourceName)`. -/
def VectorStore.hasSource (st : List EmbeddedChunk) (sourceName : String) : Bool :=
  (VectorStore.getSources st).contains sourceName

/-- geminiService.ts `embedChunks`, direct-provider path: the contents are
submitted in batches of `BATCH_SIZE = 100`, strictly in order, and the
returned vectors are concatenated.  `provider` is the external embedding
model.  Fuel as in `rawSentencesFuel` (each step consumes at least one
element); `embedBatchesFuel_congr` shows the list length is enough fuel. -/
def embedBatchesFuel (provider : List (List Char) → List (List ℚ)) :
    Nat → List (List Char) → List (List ℚ)
  | 0, _ => []
  | _, [] => []
  | fuel + 1, contents =>
    provider (contents.take 100) ++ embedBatchesFuel provider fuel (contents.drop 100)

/-- The batching loop `for (let i = 0; i < contents.length; i += BATCH_SIZE)`. -/
def embedBatches (provider : List (List Char) → List (List ℚ)) (contents : List (List Char)) :
    List (List ℚ) :=
  embedBatchesFuel provider contents.length contents

/-- The hard-failure message of `embedChunks`. -/
def mismatchMsg : String := "Mismatch between number of chunks and returned embeddings."

/-- geminiService.ts `embedChunks(chunks)`: embed all contents, then fail if
the count differs from the chunk count, else pair positionally.  The JS
`chunks.map((chunk, index) => ({...chunk, embedding: embeddings[index]}))`
indexes `embeddings` by chunk position; after the guard both lists have equal
length, so it is the positional `zipWith`. -/
def embedChunks (provider : List (List Char) → List (List ℚ)) (chunks : List DocumentChunk) :
    Except String (List EmbeddedChunk) :=
  let contents := chunks.map (fun chunk => chunk.content)
  let embeddings := embedBatches provider contents
  if embeddings.length ≠ chunks.length then Except.error mismatchMsg
  else Except.ok (List.zipWith
    (fun (chunk : DocumentChunk) embedding =>
      { source := chunk.source, content := chunk.content, embedding := embedding })
    chunks embeddings)

/-- App.tsx `handleFileUpload`, restricted to its effect on the vector store:
duplicate names are rejected up front; text extraction is the external
collaborator supplying `text`; on an `embedChunks` failure the `catch` block
only posts a message, so the store is left untouched; on success the embedded
chunks are appended via `add`. -/
def handleFileUpload (provider : List (List Char) → List (List ℚ)) (name : String)
    (text : List Char) (st : List EmbeddedChunk) : List EmbeddedChunk :=
  if VectorStore.hasSource st name then st
  else
    match embedChunks provider (chunkText name text) with
    | Except.ok embeddedChunks => VectorStore.add st embeddedChunks
    | Except.error _ => st

/-- Lookup of an own property in a JS object modelled as an association list
in property-creation order. -/
def recordGet (r : List (String × List Char)) (k : String) : Option (List Char) :=
  (r.find? (fun p => p.1 == k)).map (fun p => p.2)

/-- Own-property assignment `obj[k] = v` for a key that does not hit an
inherited accessor: update in place (keeping the original creation position)
when the object already owns the key, else append a new own property. -/
def recordSet (r : List (String × List Char)) (k : String) (v : List Char) :
    List (String × List Char) :=
  if r.any (fun p => p.1 == k) then r.map (fun p => if p.1 == k then (p.1, v) else p)
  else r ++ [(k, v)]

/-- The own data properties of `Object.prototype`: keys a fresh `{}` inherits
with truthy (function) values.  `__proto__` is inherited too but is an
accessor, handled separately in `ctxStep`. -/
def protoKeys : List String :=
  ["constructor", "hasOwnProperty", "isPrototypeOf", "propertyIsEnumerable",
   "toLocaleString", "toString", "valueOf", "__defineGetter__", "__defineSetter__",
   "__lookupGetter__", "__lookupSetter__"]

/-- A source name whose use as a `{}` key involves no `Object.prototype`
member: neither an inherited data property nor the `__proto__` accessor. -/
def isPlainSourceKey (s : String) : Bool :=
  !(protoKeys.contains s) && !(s == "__proto__")

/-- One step of the `reduce` in `buildPrompt`:
`if (!acc[chunk.source]) acc[chunk.source] = ''; acc[chunk.source] += chunk.content + '\n\n'`,
with the accumulator's full `{}` semantics:
* `__proto__` — the read yields the prototype object (truthy, so the init is
  skipped) and `+=` assigns through the inherited `__proto__` accessor, which
  ignores a string value and creates no own property: the accumulator is
  unchanged.
* a key the object does not own but `Object.prototype` does (`toString`, …) —
  the inherited function is truthy, so the init is skipped, and `+=` reads
  the inherited member, whose engine-defined string coercion `protoVal`
  is prepended to the first chunk's content in the new own property.
* any other key — absent: falsy, initialised to `''` then appended; present
  own value: never the empty (falsy) string, because every stored value ends
  in the non-empty `'\n\n'` — so the falsy test coincides with absence and
  the step is get-or-default-empty followed by an appending set. -/
def ctxStep (protoVal : String → List Char) (acc : List (String × List Char))
    (chunk : DocumentChunk) : List (String × List Char) :=
  if chunk.source == "__proto__" then acc
  else
    let prev :=
      match recordGet acc chunk.source with
      | some v => v
      | none => if protoKeys.contains chunk.source then protoVal chunk.source else []
    recordSet acc chunk.source (prev ++ chunk.content ++ ('\n' :: '\n' :: []))

/-- The value of `chunks.reduce(..., {})`. -/
def contextBySource (protoVal : String → List Char) (chunks : List DocumentChunk) :
    List (String × List Char) :=
  chunks.foldl (ctxStep protoVal) []

/-- The digits of a canonical numeric string as a number. -/
def digitsToNat (cs : List Char) : Nat :=
  cs.foldl (fun n c => n * 10 + (c.toNat - 48)) 0

/-- ECMAScript array-index key: a string `s` with
`ToString(ToUint32(s)) === s` and value below `2^32 - 1`, i.e. a canonical
decimal (digits only, no leading zero except `"0"` itself) below 4294967295.
`Object.entries` lists such keys first, in ascending numeric order. -/
def isArrayIndexKey (s : String) : Bool :=
  let cs := s.data
  !cs.isEmpty && cs.all Char.isDigit && (cs = ['0'] || cs.head? ≠ some '0')
    && digitsToNat cs < 4294967295

instance : DecidableRel (fun (p q : String × List Char) =>
    digitsToNat p.1.data ≤ digitsToNat q.1.data) :=
  fun _ _ => Nat.decLe _ _

/-- `Object.entries` on a plain object: own string keys in ECMAScript order —
canonical array-index keys ascending numerically, then the remaining keys in
property-creation order. -/
def jsEntries (r : List (String × List Char)) : List (String × List Char) :=
  let indexKeys := r.filter (fun p => isArrayIndexKey p.1)
  let stringKeys := r.filter (fun p => !(isArrayIndexKey p.1))
  (List.insertionSort (fun p q => digitsToNat p.1.data ≤ digitsToNat q.1.data) indexKeys)
    ++ stringKeys

/-- One reference block:
`[${index + 1}] Document Name: ${sourceName}\nContent:\n${content.trim()}\n\n---\n\n`,
then the remaining blocks with the index advanced. -/
def renderBlocks (index : Nat) : List (String × List Char) → List Char
  | [] => []
  | (sourceName, content) :: rest =>
    ("[" ++ toString (index + 1) ++ "] Document Name: " ++ sourceName ++ "\nContent:\n").toList
      ++ trimChars content ++ "\n\n---\n\n".toList ++ renderBlocks (index + 1) rest

/-- The fixed instruction template of `buildPrompt` up to `${context}`. -/
def promptHead : String :=
  "You are a professional document analysis assistant. Your task is to strictly answer the user's question based on the \"Reference Material\" provided below.\nIf you cannot find enough information in the reference material to answer the question, you must respond with: \"Sorry, I could not find relevant information in the provided documents.\"\n**Do not make up information or use your own pretrained knowledge.**\nEnsure your answer is clear, concise, and explicitly mentions the source document, for example: \"According to [Document Name], ...\".\n\n---\n**Reference Material:**\n"

/-- The fixed template between `${context}` and `${question}`. -/
def promptMid : String := "---\n\n**User's Question:**\n"

/-- The fixed template after `${question}`. -/
def promptTail : String :=
  "\n\n**Based on the reference material provided, please answer the user's question:**"

/-- geminiService.ts `buildPrompt(question, chunks)`.  `protoVal` is the
engine-defined string coercion of the inherited `Object.prototype` member
read when a source name collides with one of its keys. -/
def buildPrompt (protoVal : String → List Char) (question : List Char)
    (chunks : List DocumentChunk) : List Char :=
  let acc := contextBySource protoVal chunks
  let context := renderBlocks 0 (jsEntries acc)
  promptHead.toList ++ context ++ promptMid.toList ++ question ++ promptTail.toList

/-- Modelled from the spec's words for the refinement comparison of claim C9:
source names in the order first encountered among the chunks. -/
def specSources (chunks : List DocumentChunk) : List String :=
  insertionDedup [] (chunks.map (fun chunk => chunk.source))

/-- Modelled from the spec's words: within a source, the chunk contents in
the order given, each followed by two newlines. -/
def specGroupContent (chunks : List DocumentChunk) (s : String) : List Char :=
  ((chunks.filter (fun chunk => chunk.source == s)).map
    (fun chunk => chunk.content ++ ('\n' :: '\n' :: []))).flatten

/-- Modelled from the spec's words: the prompt whose reference blocks are the
source groups in first-encounter order (the property claim C9 asserts of
`buildPrompt`). -/
def specBuildPrompt (question : List Char) (chunks : List DocumentChunk) : List Char :=
  let context := renderBlocks 0
    ((specSources chunks).map (fun s => (s, specGroupContent chunks s)))
  promptHead.toList ++ context ++ promptMid.toList ++ question ++ promptTail.toList

/-- The fixed no-documents answer of `getAnswerFromDocuments`. -/
def noDocsMsg : String := "Please upload at least one document before asking a question."

/-- The fixed nothing-relevant answer of `getAnswerFromDocuments`. -/
def noMatchMsg : String :=
  "I couldn't find any relevant information in your documents to answer that question."

/-- The orchestrator's observable outcome: the returned answer together with
how many embedding-provider and completion-provider calls were issued. -/
structure AskResult where
  answer : List Char
  embedCalls : Nat
  completionCalls : Nat
deriving DecidableEq

/-- geminiService.ts `getAnswerFromDocuments(question, vectorStore)`:
short-circuit on an empty source list before any provider call; embed the
question; search with `topK = 5`; short-circuit on an empty result before the
completion call; else complete the built prompt and return its text
verbatim.  The search results are passed to `buildPrompt` as chunks (the JS
scored chunk is a structural subtype of `DocumentChunk`). -/
def getAnswerFromDocuments (sqrt : ℚ → ℚ) (protoVal : String → List Char)
    (embedProvider : List Char → List ℚ) (completionProvider : List Char → List Char)
    (question : List Char) (st : List EmbeddedChunk) : AskResult :=
  if (VectorStore.getSources st).length = 0 then
    { answer := noDocsMsg.toList, embedCalls := 0, completionCalls := 0 }
  else
    let questionEmbedding := embedProvider question
    let relevantChunks := VectorStore.search sqrt st questionEmbedding 5
    if relevantChunks.length = 0 then
      { answer := noMatchMsg.toList, embedCalls := 1, completionCalls := 0 }
    else
      { answer := completionProvider (buildPrompt protoVal question
          (relevantChunks.map (fun r => { source := r.source, content := r.content }))),
        embedCalls := 1, completionCalls := 1 }

/-- Concrete fixture: a 1501-character text of three sentences (500, 500 and
501 characters), long enough to take the windowed path and produce two
chunks. -/
def wText : List Char :=
  (List.replicate 499 'a' ++ ['.']) ++ (List.replicate 499 'b' ++ ['.'])
    ++ (List.replicate 500 'c' ++ ['.'])

/-- Concrete fixture: stored chunks with empty embeddings (the degenerate
similarity branch, which evaluates without rational arithmetic). -/
def chunkA : EmbeddedChunk := { source := "A", content := ['a'], embedding := [] }

/-- Second stored fixture chunk. -/
def chunkB : EmbeddedChunk := { source := "B", content := ['b'], embedding := [] }

/-- Fixture chunk from source `"X"`. -/
def chunkX : EmbeddedChunk := { source := "X", content := ['x'], embedding := [] }

/-- Fixture chunk from source `"Y"`. -/
def chunkY : EmbeddedChunk := { source := "Y", content := ['y'], embedding := [] }

theorem isEmpty_eq_false_of_ne_nil {l : List (List Char)} (h : ¬l.isEmpty) : l ≠ [] := by
  cases l with
  | nil => simp at h
  | cons x xs => simp

theorem joinSp_ne_nil {s : List Char} {rest : List (List Char)} (hs : s ≠ []) :
    joinSp (s :: rest) ≠ [] := by
  cases rest with
  | nil => simpa [joinSp] using hs
  | cons t ts =>
    simp only [joinSp]
    intro h
    exact hs (List.append_eq_nil.mp h).1

theorem chunkLoop_eq_windowLoop :
    ∀ (sentences : List (List Char)) (cur : List (List Char)),
      chunkLoop sentences cur = (windowLoop sentences cur).map joinSp
  | [], cur => by
    by_cases h : cur.isEmpty <;> simp [chunkLoop, windowLoop, h]
  | sentence :: rest, cur => by
    by_cases h : 1500 < (joinSp cur).length + sentence.length ∧ ¬cur.isEmpty
    · simp only [chunkLoop, windowLoop, if_pos h, List.map_cons]
      rw [chunkLoop_eq_windowLoop rest]
    · simp only [chunkLoop, windowLoop, if_neg h]
      exact chunkLoop_eq_windowLoop rest _

theorem windowLoop_head :
    ∀ (sentences : List (List Char)) (cur w : List (List Char)) (ws : List (List (List Char))),
      windowLoop sentences cur = w :: ws → ∃ t, w = cur ++ t
  | [], cur, w, ws => by
    by_cases h : cur.isEmpty
    · simp [windowLoop, h]
    · simp only [windowLoop, if_neg h, List.cons.injEq, and_imp]
      intro hw _
      exact ⟨[], by simp [hw.symm]⟩
  | sentence :: rest, cur, w, ws => by
    by_cases h : 1500 < (joinSp cur).length + sentence.length ∧ ¬cur.isEmpty
    · simp only [windowLoop, if_pos h, List.cons.injEq, and_imp]
      intro hw _
      exact ⟨[], by simp [hw.symm]⟩
    · simp only [windowLoop, if_neg h]
      intro hw
      obtain ⟨t, ht⟩ := windowLoop_head rest (cur ++ [sentence]) w ws hw
      exact ⟨sentence :: t, by simp [ht]⟩

theorem windowLoop_chain :
    ∀ (sentences : List (List Char)) (cur : List (List Char)),
      List.Chain' overlapSeeded (windowLoop sentences cur)
  | [], cur => by
    by_cases h : cur.isEmpty <;> simp [windowLoop, h]
  | sentence :: rest, cur => by
    by_cases h : 1500 < (joinSp cur).length + sentence.length ∧ ¬cur.isEmpty
    · rw [windowLoop, if_pos h]
      refine List.Chain'.cons' (windowLoop_chain rest _) ?_
      intro w hw
      cases hhead : windowLoop rest ((cur.drop (cur.length - 2)) ++ [sentence]) with
      | nil => rw [hhead] at hw; simp at hw
      | cons w₀ ws =>
        rw [hhead] at hw
        simp only [List.head?_cons, Option.mem_def, Option.some.injEq] at hw
        obtain ⟨t, ht⟩ := windowLoop_head rest _ w₀ ws hhead
        exact ⟨sentence :: t, by rw [← hw, ht, List.append_assoc]; rfl⟩
    · rw [windowLoop, if_neg h]
      exact windowLoop_chain rest _

theorem chunkLoop_ne_nil :
    ∀ (sentences : List (List Char)) (cur : List (List Char)),
      (∀ s ∈ sentences, s ≠ []) → (∀ s ∈ cur, s ≠ []) →
      ∀ c ∈ chunkLoop sentences cur, c ≠ []
  | [], cur => by
    intro _ hcur c hc
    by_cases h : cur.isEmpty
    · simp [chunkLoop, h] at hc
    · simp only [chunkLoop, if_neg h, List.mem_singleton] at hc
      subst hc
      cases cur with
      | nil => simp at h
      | cons s ss => exact joinSp_ne_nil (hcur s (by simp))
  | sentence :: rest, cur => by
    intro hsent hcur c hc
    by_cases h : 1500 < (joinSp cur).length + sentence.length ∧ ¬cur.isEmpty
    · rw [chunkLoop, if_pos h] at hc
      rcases List.mem_cons.mp hc with hc | hc
      · subst hc
        cases cur with
        | nil => simp at h
        | cons s ss => exact joinSp_ne_nil (hcur s (by simp))
      · refine chunkLoop_ne_nil rest _ (fun s hs => hsent s (by simp [hs])) ?_ c hc
        intro s hs
        rcases List.mem_append.mp hs with hs | hs
        · exact hcur s (List.mem_of_mem_drop hs)
        · rw [List.mem_singleton.mp hs]; exact hsent sentence (by simp)
    · rw [chunkLoop, if_neg h] at hc
      refine chunkLoop_ne_nil rest _ (fun s hs => hsent s (by simp [hs])) ?_ c hc
      intro s hs
      rcases List.mem_append.mp hs with hs | hs
      · exact hcur s hs
      · rw [List.mem_singleton.mp hs]; exact hsent sentence (by simp)

theorem getSentences_ne_nil {text : List Char} : ∀ s ∈ getSentences text, s ≠ [] := by
  intro s hs
  unfold getSentences at hs
  have := (List.mem_filter.mp hs).2
  simpa [List.isEmpty_iff] using this

theorem filter_orderedInsert_sim_eq {x : ScoredChunk} {s : ℚ} (hx : x.similarity = s) :
    ∀ l : List ScoredChunk,
      (List.orderedInsert simGE x l).filter (fun c => decide (c.similarity = s)) =
        x :: l.filter (fun c => decide (c.similarity = s))
  | [] => by simp [hx]
  | y :: ys => by
    by_cases h : simGE x y
    · simp [List.orderedInsert, h, hx]
    · have hy : y.similarity ≠ s := by
        intro he
        exact h (by simp [simGE, he, hx])
      simp only [List.orderedInsert, if_neg h, List.filter_cons]
      simp only [decide_eq_true_eq, hy, if_false]
      rw [filter_orderedInsert_sim_eq hx ys]

theorem filter_orderedInsert_sim_ne {x : ScoredChunk} {s : ℚ} (hx : x.similarity ≠ s) :
    ∀ l : List ScoredChunk,
      (List.orderedInsert simGE x l).filter (fun c => decide (c.similarity = s)) =
        l.filter (fun c => decide (c.similarity = s))
  | [] => by simp [hx]
  | y :: ys => by
    by_cases h : simGE x y
    · simp [List.orderedInsert, h, hx]
    · simp only [List.orderedInsert, if_neg h, List.filter_cons]
      rw [filter_orderedInsert_sim_ne hx ys]

theorem sortScored_filter_sim (s : ℚ) :
    ∀ l : List ScoredChunk,
      (sortScored l).filter (fun c => decide (c.similarity = s)) =
        l.filter (fun c => decide (c.similarity = s))
  | [] => rfl
  | x :: xs => by
    show (List.orderedInsert simGE x (List.insertionSort simGE xs)).filter _ = _
    by_cases hx : x.similarity = s
    · rw [filter_orderedInsert_sim_eq hx]
      rw [show List.insertionSort simGE xs = sortScored xs from rfl]
      rw [sortScored_filter_sim s xs]
      simp [hx]
    · rw [filter_orderedInsert_sim_ne hx]
      rw [show List.insertionSort simGE xs = sortScored xs from rfl]
      rw [sortScored_filter_sim s xs]
      simp [hx]

theorem mem_search {sqrt : ℚ → ℚ} {st : List EmbeddedChunk} {q : List ℚ} {k : Nat}
    {r : ScoredChunk} (h : r ∈ VectorStore.search sqrt st q k) :
    ∃ c ∈ st, r = scoreChunk sqrt q c := by
  unfold VectorStore.search at h
  have h₁ : r ∈ sortScored (st.map (scoreChunk sqrt q)) := List.mem_of_mem_take h
  have h₂ : r ∈ st.map (scoreChunk sqrt q) := by
    simpa [sortScored] using h₁
  obtain ⟨c, hc, hr⟩ := List.mem_map.mp h₂
  exact ⟨c, hc, hr.symm⟩

theorem search_length (sqrt : ℚ → ℚ) (st : List EmbeddedChunk) (q : List ℚ) (k : Nat) :
    (VectorStore.search sqrt st q k).length = min k st.length := by
  unfold VectorStore.search
  rw [List.length_take]
  simp [sortScored]

theorem search_sorted (sqrt : ℚ → ℚ) (st : List EmbeddedChunk) (q : List ℚ) (k : Nat) :
    (VectorStore.search sqrt st q k).Pairwise simGE :=
  List.Pairwise.sublist (List.take_sublist _ _) (List.sorted_insertionSort simGE _)

theorem mem_insertionDedup :
    ∀ (l seen : List String) (x : String),
      x ∈ insertionDedup seen l ↔ x ∈ l ∧ x ∉ seen
  | [], seen, x => by simp [insertionDedup]
  | y :: ys, seen, x => by
    by_cases hy : y ∈ seen
    · rw [insertionDedup, if_pos hy, mem_insertionDedup ys seen x]
      constructor
      · exact fun ⟨h₁, h₂⟩ => ⟨List.mem_cons_of_mem y h₁, h₂⟩
      · rintro ⟨h₁, h₂⟩
        rcases List.mem_cons.mp h₁ with rfl | h₁
        · exact absurd hy h₂
        · exact ⟨h₁, h₂⟩
    · rw [insertionDedup, if_neg hy]
      simp only [List.mem_cons, mem_insertionDedup ys (y :: seen) x]
      by_cases hx : x = y
      · subst hx
        simp [hy]
      · simp only [hx, false_or]

theorem mem_getSources {st : List EmbeddedChunk} {x : String} :
    x ∈ VectorStore.getSources st ↔ x ∈ st.map (fun chunk => chunk.source) := by
  unfold VectorStore.getSources
  rw [mem_insertionDedup]
  simp

theorem getSources_ne_nil {st : List EmbeddedChunk} (h : st ≠ []) :
    VectorStore.getSources st ≠ [] := by
  cases st with
  | nil => exact absurd rfl h
  | cons c cs =>
    intro hempty
    have : c.source ∈ VectorStore.getSources (c :: cs) := mem_getSources.mpr (by simp)
    rw [hempty] at this
    exact List.not_mem_nil _ this

theorem getSources_nil : VectorStore.getSources [] = [] := rfl

theorem dropWhile_head_false {α : Type} {p : α → Bool} :
    ∀ {l : List α} {a : α} {t : List α}, List.dropWhile p l = a :: t → p a = false := by
  intro l
  induction l with
  | nil => intro a t h; simp [List.dropWhile] at h
  | cons x xs ih =>
    intro a t h
    rw [List.dropWhile_cons] at h
    by_cases hx : p x
    · rw [if_pos hx] at h; exact ih h
    · rw [if_neg hx] at h
      cases h
      simpa using hx

theorem length_dropWhile_le {α : Type} (p : α → Bool) :
    ∀ l : List α, (List.dropWhile p l).length ≤ l.length := by
  intro l
  induction l with
  | nil => simp
  | cons x xs ih =>
    rw [List.dropWhile_cons]
    by_cases hx : p x
    · rw [if_pos hx]; exact le_trans ih (by simp)
    · rw [if_neg hx]

theorem rawSentencesFuel_nil : ∀ fuel : Nat, rawSentencesFuel fuel [] = []
  | 0 => rfl
  | _ + 1 => rfl

/-- The fuel `text.length` used by `rawSentences` is enough: any two
sufficient fuels give the same result, because each emitted sentence consumes
at least one character. -/
theorem rawSentencesFuel_congr :
    ∀ (f₁ : Nat) (text : List Char) (f₂ : Nat), text.length ≤ f₁ → text.length ≤ f₂ →
      rawSentencesFuel f₁ text = rawSentencesFuel f₂ text
  | 0, text, f₂ => by
    intro h₁ _
    have : text = [] := List.eq_nil_of_length_eq_zero (Nat.le_zero.mp h₁)
    subst this
    rw [rawSentencesFuel_nil, rawSentencesFuel_nil]
  | g + 1, text, 0 => by
    intro _ h₂
    have : text = [] := List.eq_nil_of_length_eq_zero (Nat.le_zero.mp h₂)
    subst this
    rw [rawSentencesFuel_nil, rawSentencesFuel_nil]
  | g + 1, text, h + 1 => by
    intro h₁ h₂
    show rawSentencesFuel (g + 1) text = rawSentencesFuel (h + 1) text
    rw [rawSentencesFuel, rawSentencesFuel]
    cases hrest : text.dropWhile isTerminator with
    | nil => rfl
    | cons a t =>
      simp only []
      have ha : isTerminator a = false := dropWhile_head_false hrest
      have hrestlen : (a :: t).length ≤ text.length := by
        rw [← hrest]; exact length_dropWhile_le _ _
      have hafter :
          ((a :: t).dropWhile (fun c => !(isTerminator c))).length ≤ t.length := by
        rw [List.dropWhile_cons, if_pos (by simp [ha])]
        exact length_dropWhile_le _ _
      have hrem :
          ((((a :: t).dropWhile (fun c => !(isTerminator c))).dropWhile isTerminator)).length
            ≤ t.length :=
        le_trans (length_dropWhile_le _ _) hafter
      have hlen : ((((a :: t).dropWhile (fun c => !(isTerminator c))).dropWhile
          isTerminator)).length ≤ g ∧
          ((((a :: t).dropWhile (fun c => !(isTerminator c))).dropWhile
          isTerminator)).length ≤ h := by
        simp only [List.length_cons] at hrestlen
        omega
      rw [rawSentencesFuel_congr g _ h hlen.1 hlen.2]

theorem embedBatchesFuel_nil (provider : List (List Char) → List (List ℚ)) :
    ∀ fuel : Nat, embedBatchesFuel provider fuel [] = []
  | 0 => rfl
  | _ + 1 => rfl

/-- The fuel `contents.length` used by `embedBatches` is enough: each batch
consumes at least one element. -/
theorem embedBatchesFuel_congr (provider : List (List Char) → List (List ℚ)) :
    ∀ (f₁ : Nat) (contents : List (List Char)) (f₂ : Nat),
      contents.length ≤ f₁ → contents.length ≤ f₂ →
      embedBatchesFuel provider f₁ contents = embedBatchesFuel provider f₂ contents
  | 0, contents, f₂ => by
    intro h₁ _
    have : contents = [] := List.eq_nil_of_length_eq_zero (Nat.le_zero.mp h₁)
    subst this
    rw [embedBatchesFuel_nil, embedBatchesFuel_nil]
  | g + 1, contents, 0 => by
    intro _ h₂
    have : contents = [] := List.eq_nil_of_length_eq_zero (Nat.le_zero.mp h₂)
    subst this
    rw [embedBatchesFuel_nil, embedBatchesFuel_nil]
  | g + 1, contents, h + 1 => by
    intro h₁ h₂
    cases contents with
    | nil => rw [embedBatchesFuel_nil, embedBatchesFuel_nil]
    | cons c cs =>
      show provider ((c :: cs).take 100) ++ embedBatchesFuel provider g ((c :: cs).drop 100)
          = provider ((c :: cs).take 100) ++ embedBatchesFuel provider h ((c :: cs).drop 100)
      have hdrop : ((c :: cs).drop 100).length ≤ cs.length := by
        rw [List.length_drop]
        simp only [List.length_cons]
        omega
      simp only [List.length_cons] at h₁ h₂
      rw [embedBatchesFuel_congr provider g _ h (by omega) (by omega)]

theorem zipEmbed_map_source :
    ∀ (chunks : List DocumentChunk) (embs : List (List ℚ)), embs.length = chunks.length →
      (List.zipWith (fun (chunk : DocumentChunk) embedding =>
          ({ source := chunk.source, content := chunk.content, embedding := embedding } :
            EmbeddedChunk)) chunks embs).map (fun e => e.source) =
        chunks.map (fun chunk => chunk.source)
  | [], [], _ => rfl
  | [], _ :: _, h => by simp at h
  | _ :: _, [], h => by simp at h
  | c :: cs, e :: es, h => by
    simp only [List.zipWith_cons_cons, List.map_cons]
    rw [zipEmbed_map_source cs es (by simpa using h)]

theorem zipEmbed_map_content :
    ∀ (chunks : List DocumentChunk) (embs : List (List ℚ)), embs.length = chunks.length →
      (List.zipWith (fun (chunk : DocumentChunk) embedding =>
          ({ source := chunk.source, content := chunk.content, embedding := embedding } :
            EmbeddedChunk)) chunks embs).map (fun e => e.content) =
        chunks.map (fun chunk => chunk.content)
  | [], [], _ => rfl
  | [], _ :: _, h => by simp at h
  | _ :: _, [], h => by simp at h
  | c :: cs, e :: es, h => by
    simp only [List.zipWith_cons_cons, List.map_cons]
    rw [zipEmbed_map_content cs es (by simpa using h)]

theorem zipEmbed_map_embedding :
    ∀ (chunks : List DocumentChunk) (embs : List (List ℚ)), embs.length = chunks.length →
      (List.zipWith (fun (chunk : DocumentChunk) embedding =>
          ({ source := chunk.source, content := chunk.content, embedding := embedding } :
            EmbeddedChunk)) chunks embs).map (fun e => e.embedding) = embs
  | [], [], _ => rfl
  | [], _ :: _, h => by simp at h
  | _ :: _, [], h => by simp at h
  | c :: cs, e :: es, h => by
    simp only [List.zipWith_cons_cons, List.map_cons]
    rw [zipEmbed_map_embedding cs es (by simpa using h)]

theorem recordGet_of_mem :
    ∀ {r : List (String × List Char)} {k : String} {v : List Char},
      (r.map Prod.fst).Nodup → (k, v) ∈ r → recordGet r k = some v
  | [], k, v, _, hm => by simp at hm
  | p :: ps, k, v, hnd, hm => by
    rcases List.mem_cons.mp hm with rfl | hm
    · simp [recordGet, List.find?]
    · rw [List.map_cons] at hnd
      obtain ⟨h1, hps⟩ := List.nodup_cons.mp hnd
      have hne : p.1 ≠ k := fun he =>
        h1 (by rw [he]; exact List.mem_map.mpr ⟨(k, v), hm, rfl⟩)
      have := recordGet_of_mem hps hm
      simp only [recordGet, List.find?] at this ⊢
      rw [show (p.1 == k) = false from beq_eq_false_iff_ne.mpr hne]
      exact this

theorem recordGet_of_not_mem :
    ∀ {r : List (String × List Char)} {k : String},
      k ∉ r.map Prod.fst → recordGet r k = none
  | [], k, _ => rfl
  | p :: ps, k, h => by
    have h₁ : p.1 ≠ k := fun he => h (by simp [← he])
    have h₂ : k ∉ ps.map Prod.fst := fun hm => h (by simp [hm])
    have := recordGet_of_not_mem h₂
    simp only [recordGet, List.find?] at this ⊢
    rw [show (p.1 == k) = false from beq_eq_false_iff_ne.mpr h₁]
    exact this

theorem recordSet_of_mem {r : List (String × List Char)} {k : String} (v : List Char)
    (h : k ∈ r.map Prod.fst) :
    recordSet r k v = r.map (fun p => if p.1 == k then (p.1, v) else p) := by
  unfold recordSet
  rw [if_pos]
  obtain ⟨p, hp, he⟩ := List.mem_map.mp h
  exact List.any_eq_true.mpr ⟨p, hp, by simp [he]⟩

theorem recordSet_of_not_mem {r : List (String × List Char)} {k : String} (v : List Char)
    (h : k ∉ r.map Prod.fst) : recordSet r k v = r ++ [(k, v)] := by
  unfold recordSet
  rw [if_neg]
  intro hany
  obtain ⟨p, hp, he⟩ := List.any_eq_true.mp hany
  exact h (List.mem_map.mpr ⟨p, hp, beq_iff_eq.mp he⟩)

theorem keys_map_update (r : List (String × List Char)) (k : String) (v : List Char) :
    (r.map (fun p => if p.1 == k then (p.1, v) else p)).map Prod.fst = r.map Prod.fst := by
  rw [List.map_map]
  refine List.map_congr_left ?_
  intro p _
  by_cases hp : p.1 = k <;> simp [hp]

theorem ctxStep_of_mem {protoVal : String → List Char} {r : List (String × List Char)}
    {c : DocumentChunk} {v : List Char}
    (hnd : (r.map Prod.fst).Nodup) (hv : (c.source, v) ∈ r)
    (hpp : c.source ≠ "__proto__") :
    ctxStep protoVal r c = r.map (fun p =>
      if p.1 == c.source then (p.1, v ++ c.content ++ ('\n' :: '\n' :: [])) else p) := by
  unfold ctxStep
  rw [if_neg (by simpa using hpp)]
  rw [recordGet_of_mem hnd hv]
  rw [recordSet_of_mem _ (List.mem_map.mpr ⟨(c.source, v), hv, rfl⟩)]

theorem ctxStep_of_not_mem {protoVal : String → List Char} {r : List (String × List Char)}
    {c : DocumentChunk} (h : c.source ∉ r.map Prod.fst)
    (hpk : protoKeys.contains c.source = false) (hpp : c.source ≠ "__proto__") :
    ctxStep protoVal r c = r ++ [(c.source, c.content ++ ('\n' :: '\n' :: []))] := by
  unfold ctxStep
  rw [if_neg (by simpa using hpp)]
  rw [recordGet_of_not_mem h]
  rw [recordSet_of_not_mem _ h]
  rw [hpk]
  simp

/-- The `__proto__` divergence in the source: a chunk whose source is
`"__proto__"` leaves the accumulator unchanged (the inherited accessor
swallows the assignment), so its group never appears in `Object.entries`. -/
theorem ctxStep_proto (protoVal : String → List Char) (acc : List (String × List Char))
    (c : DocumentChunk) (h : c.source = "__proto__") : ctxStep protoVal acc c = acc := by
  unfold ctxStep
  rw [if_pos (by simpa using h)]

/-- The inherited-key divergence in the source: the first chunk of a source
named like an `Object.prototype` member gets the inherited function's string
coercion prepended to its group, because `!acc[k]` sees the truthy inherited
value and skips the `''` initialisation. -/
theorem ctxStep_inherited (protoVal : String → List Char) {acc : List (String × List Char)}
    {c : DocumentChunk} (h : c.source ∉ acc.map Prod.fst)
    (hpk : protoKeys.contains c.source = true) (hpp : c.source ≠ "__proto__") :
    ctxStep protoVal acc c
      = acc ++ [(c.source, protoVal c.source ++ c.content ++ ('\n' :: '\n' :: []))] := by
  unfold ctxStep
  rw [if_neg (by simpa using hpp)]
  rw [recordGet_of_not_mem h]
  rw [recordSet_of_not_mem _ h]
  rw [hpk]
  simp

theorem key_unique :
    ∀ {r : List (String × List Char)} {k : String} {v : List Char} {p : String × List Char},
      (r.map Prod.fst).Nodup → (k, v) ∈ r → p ∈ r → p.1 = k → p = (k, v)
  | [], _, _, _, _, hm, _, _ => by simp at hm
  | q :: qs, k, v, p, hnd, hm, hp, hpk => by
    rw [List.map_cons] at hnd
    obtain ⟨hq1, hq2⟩ := List.nodup_cons.mp hnd
    rcases List.mem_cons.mp hm with hm1 | hm1 <;> rcases List.mem_cons.mp hp with hp1 | hp1
    · rw [hp1, ← hm1]
    · exfalso
      apply hq1
      rw [← hm1]
      exact List.mem_map.mpr ⟨p, hp1, hpk⟩
    · exfalso
      apply hq1
      rw [← hp1, hpk]
      exact List.mem_map.mpr ⟨(k, v), hm1, rfl⟩
    · exact key_unique hq2 hm1 hp1 hpk

theorem specGroupContent_cons_eq {c : DocumentChunk} {rest : List DocumentChunk} {s : String}
    (h : c.source = s) :
    specGroupContent (c :: rest) s = (c.content ++ ('\n' :: '\n' :: []))
      ++ specGroupContent rest s := by
  unfold specGroupContent
  rw [List.filter_cons, if_pos (by simpa using h)]
  simp

theorem specGroupContent_cons_ne {c : DocumentChunk} {rest : List DocumentChunk} {s : String}
    (h : c.source ≠ s) : specGroupContent (c :: rest) s = specGroupContent rest s := by
  unfold specGroupContent
  rw [List.filter_cons, if_neg (by simpa using h)]

theorem insertionDedup_congr :
    ∀ (l s₁ s₂ : List String), (∀ x, x ∈ s₁ ↔ x ∈ s₂) →
      insertionDedup s₁ l = insertionDedup s₂ l
  | [], _, _, _ => rfl
  | y :: ys, s₁, s₂, h => by
    by_cases hy : y ∈ s₁
    · rw [insertionDedup, if_pos hy, insertionDedup, if_pos ((h y).mp hy)]
      exact insertionDedup_congr ys s₁ s₂ h
    · rw [insertionDedup, if_neg hy, insertionDedup, if_neg (fun hm => hy ((h y).mpr hm))]
      rw [insertionDedup_congr ys (y :: s₁) (y :: s₂) (by intro x; simp [h x])]

theorem ctxFold_spec (protoVal : String → List Char) :
    ∀ (chunks : List DocumentChunk) (r : List (String × List Char)),
      (r.map Prod.fst).Nodup →
      (∀ c ∈ chunks, isPlainSourceKey c.source = true) →
      chunks.foldl (ctxStep protoVal) r =
        r.map (fun p => (p.1, p.2 ++ specGroupContent chunks p.1))
          ++ (insertionDedup (r.map Prod.fst) (chunks.map (fun c => c.source))).map
              (fun s => (s, specGroupContent chunks s))
  | [], r, _, _ => by
    simp [insertionDedup, specGroupContent]
  | c :: rest, r, hnd, hplain => by
    have hcplain := hplain c (List.mem_cons_self c rest)
    simp only [isPlainSourceKey, Bool.and_eq_true, Bool.not_eq_true'] at hcplain
    have hpk : protoKeys.contains c.source = false := hcplain.1
    have hpp : c.source ≠ "__proto__" := by simpa using hcplain.2
    have hrest : ∀ d ∈ rest, isPlainSourceKey d.source = true :=
      fun d hd => hplain d (List.mem_cons_of_mem c hd)
    rw [List.foldl_cons]
    by_cases hc : c.source ∈ r.map Prod.fst
    · obtain ⟨p0, hp0, hep⟩ := List.mem_map.mp hc
      have hv : (c.source, p0.2) ∈ r := by rw [← hep, Prod.mk.eta]; exact hp0
      rw [ctxStep_of_mem hnd hv hpp]
      have hkeys : ((r.map (fun p => if p.1 == c.source
            then (p.1, p0.2 ++ c.content ++ ('\n' :: '\n' :: [])) else p)).map Prod.fst)
          = r.map Prod.fst := keys_map_update r c.source _
      have hnd' : ((r.map (fun p => if p.1 == c.source
            then (p.1, p0.2 ++ c.content ++ ('\n' :: '\n' :: [])) else p)).map Prod.fst).Nodup := by
        rw [hkeys]; exact hnd
      rw [ctxFold_spec protoVal rest _ hnd' hrest, hkeys]
      have hdedup : insertionDedup (r.map Prod.fst) ((c :: rest).map (fun c => c.source))
          = insertionDedup (r.map Prod.fst) (rest.map (fun c => c.source)) := by
        rw [List.map_cons, insertionDedup, if_pos hc]
      have hmap2 : (insertionDedup (r.map Prod.fst) (rest.map (fun c => c.source))).map
            (fun s => (s, specGroupContent (c :: rest) s))
          = (insertionDedup (r.map Prod.fst) (rest.map (fun c => c.source))).map
            (fun s => (s, specGroupContent rest s)) := by
        refine List.map_congr_left ?_
        intro s hs
        have hsk := (mem_insertionDedup _ _ _).mp hs
        have hne : c.source ≠ s := fun he => hsk.2 (by rw [← he]; exact hc)
        rw [specGroupContent_cons_ne hne]
      have hmap1 : r.map (fun p => (p.1, p.2 ++ specGroupContent (c :: rest) p.1))
          = (r.map (fun p => if p.1 == c.source
              then (p.1, p0.2 ++ c.content ++ ('\n' :: '\n' :: [])) else p)).map
            (fun p => (p.1, p.2 ++ specGroupContent rest p.1)) := by
        rw [List.map_map]
        refine List.map_congr_left ?_
        intro p hp
        simp only [Function.comp_apply]
        by_cases hpc : p.1 = c.source
        · have hpe : p = (c.source, p0.2) := key_unique hnd hv hp hpc
          rw [if_pos (beq_iff_eq.mpr hpc)]
          rw [specGroupContent_cons_eq hpc.symm]
          rw [show p.2 = p0.2 from by rw [hpe]]
          simp [List.append_assoc]
        · rw [if_neg (by simpa using hpc)]
          rw [specGroupContent_cons_ne (fun he => hpc he.symm)]
      rw [hdedup, hmap2, hmap1]
    · rw [ctxStep_of_not_mem hc hpk hpp]
      have hkeys : ((r ++ [(c.source, c.content ++ ('\n' :: '\n' :: []))]).map Prod.fst)
          = r.map Prod.fst ++ [c.source] := by simp
      have hnd' : (((r ++ [(c.source, c.content ++ ('\n' :: '\n' :: []))]).map Prod.fst)).Nodup := by
        rw [hkeys]
        rw [List.nodup_append]
        exact ⟨hnd, List.nodup_singleton _, by simpa using hc⟩
      rw [ctxFold_spec protoVal rest _ hnd' hrest, hkeys]
      have hdedup : insertionDedup (r.map Prod.fst) ((c :: rest).map (fun c => c.source))
          = c.source :: insertionDedup (c.source :: r.map Prod.fst)
              (rest.map (fun c => c.source)) := by
        rw [List.map_cons, insertionDedup, if_neg hc]
      have hseen : insertionDedup (r.map Prod.fst ++ [c.source]) (rest.map (fun c => c.source))
          = insertionDedup (c.source :: r.map Prod.fst) (rest.map (fun c => c.source)) := by
        refine insertionDedup_congr _ _ _ ?_
        intro x
        simp [or_comm]
      have hmap2 : (insertionDedup (c.source :: r.map Prod.fst)
              (rest.map (fun c => c.source))).map
            (fun s => (s, specGroupContent (c :: rest) s))
          = (insertionDedup (c.source :: r.map Prod.fst)
              (rest.map (fun c => c.source))).map
            (fun s => (s, specGroupContent rest s)) := by
        refine List.map_congr_left ?_
        intro s hs
        have hsk := (mem_insertionDedup _ _ _).mp hs
        have hne : c.source ≠ s := fun he => hsk.2 (by rw [← he]; exact List.mem_cons_self _ _)
        rw [specGroupContent_cons_ne hne]
      have hmap1 : r.map (fun p => (p.1, p.2 ++ specGroupContent (c :: rest) p.1))
          = r.map (fun p => (p.1, p.2 ++ specGroupContent rest p.1)) := by
        refine List.map_congr_left ?_
        intro p hp
        have hne : c.source ≠ p.1 := fun he =>
          hc (by rw [he]; exact List.mem_map.mpr ⟨p, hp, rfl⟩)
        rw [specGroupContent_cons_ne hne]
      rw [hdedup, hseen]
      simp only [List.map_append, List.map_cons, List.map_nil]
      rw [hmap1, hmap2]
      rw [specGroupContent_cons_eq rfl]
      simp [List.append_assoc]

theorem contextBySource_spec (protoVal : String → List Char) (chunks : List DocumentChunk)
    (hplain : ∀ c ∈ chunks, isPlainSourceKey c.source = true) :
    contextBySource protoVal chunks
      = (specSources chunks).map (fun s => (s, specGroupContent chunks s)) := by
  unfold contextBySource specSources
  rw [ctxFold_spec protoVal chunks [] (by simp) hplain]
  simp

theorem jsEntries_of_no_index {r : List (String × List Char)}
    (h : ∀ p ∈ r, isArrayIndexKey p.1 = false) : jsEntries r = r := by
  unfold jsEntries
  have h1 : r.filter (fun p => isArrayIndexKey p.1) = [] := by
    rw [List.filter_eq_nil_iff]
    intro p hp
    simp [h p hp]
  have h2 : r.filter (fun p => !(isArrayIndexKey p.1)) = r := by
    rw [List.filter_eq_self]
    intro p hp
    simp [h p hp]
  rw [h1, h2]
  rfl

/-- C1: for every store state and query embedding, `VectorStore.search`
returns the stored chunks (scored against the query) sorted in descending
order of cosine similarity; the sort is stable — chunks of equal similarity
keep their insertion order, stated as: filtering any similarity class out of
the sorted sequence gives exactly that class's subsequence of the input; the
result has length `min topK (number of stored chunks)`, so never more than
`topK` nor more than the store holds; and an empty store yields the empty
sequence. -/
theorem search_sorted_stable_topk (sqrt : ℚ → ℚ) (st : List EmbeddedChunk) (q : List ℚ)
    (topK : Nat) :
    (VectorStore.search sqrt st q topK).Pairwise (fun a b => b.similarity ≤ a.similarity)
    ∧ (VectorStore.search sqrt st q topK).length = min topK st.length
    ∧ VectorStore.search sqrt st q topK = (sortScored (st.map (scoreChunk sqrt q))).take topK
    ∧ (sortScored (st.map (scoreChunk sqrt q))).Perm (st.map (scoreChunk sqrt q))
    ∧ (∀ s : ℚ,
        (sortScored (st.map (scoreChunk sqrt q))).filter (fun c => decide (c.similarity = s))
          = (st.map (scoreChunk sqrt q)).filter (fun c => decide (c.similarity = s)))
    ∧ (∀ r ∈ VectorStore.search sqrt st q topK, ∃ c ∈ st, r = scoreChunk sqrt q c)
    ∧ (st = [] → VectorStore.search sqrt st q topK = []) := by
  refine ⟨search_sorted sqrt st q topK, search_length sqrt st q topK, rfl,
    List.perm_insertionSort simGE _, fun s => sortScored_filter_sim s _,
    fun r hr => mem_search hr, ?_⟩
  rintro rfl
  simp [VectorStore.search, sortScored]

/-- C2 counterexample: on the empty input text, `chunkText` takes the
short-text passthrough (`0 < 1500`) and returns one chunk whose content is
empty — not the empty chunk sequence, and not free of empty-content
chunks. -/
theorem chunkText_empty_counterexample :
    chunkText "doc" [] = [{ source := "doc", content := [] }]
    ∧ chunkText "doc" [] ≠ []
    ∧ ∃ c ∈ chunkText "doc" [], c.content = [] := by
  refine ⟨rfl, by decide, { source := "doc", content := [] }, by decide, rfl⟩

/-- C2 (amended): `chunk(name, "")` returns exactly one chunk with empty
content (the short-text passthrough applies since `0 < 1500`); for every
non-empty input text no produced chunk has empty content. -/
theorem chunkText_empty_content_amended (name : String) (text : List Char) :
    (text = [] → chunkText name text = [{ source := name, content := [] }])
    ∧ (text ≠ [] → ∀ c ∈ chunkText name text, c.content ≠ []) := by
  constructor
  · rintro rfl
    rfl
  · intro htext c hc
    simp only [chunkText] at hc
    by_cases hlen : text.length < 1500
    · rw [if_pos hlen] at hc
      rw [List.mem_singleton.mp hc]
      exact htext
    · rw [if_neg hlen] at hc
      obtain ⟨content, hcontent, hcc⟩ := List.mem_map.mp hc
      have hne : content ≠ [] :=
        chunkLoop_ne_nil _ [] getSentences_ne_nil (by simp) content hcontent
      rw [← hcc]
      exact hne

/-- C3: for text shorter than 1500 characters, `chunkText` returns exactly
one chunk whose content is the text verbatim and whose source is the given
name. -/
theorem chunkText_short_passthrough (name : String) (text : List Char)
    (h : text.length < 1500) :
    chunkText name text = [{ source := name, content := text }] := by
  simp only [chunkText]
  rw [if_pos h]

/-- C3 witness at a concrete short text. -/
theorem chunkText_short_passthrough_witness :
    chunkText "doc" ['h', 'i'] = [{ source := "doc", content := ['h', 'i'] }] :=
  chunkText_short_passthrough "doc" ['h', 'i'] (by decide)

/-- C4: `cosineSimilarity` returns exactly `0` when the vectors have unequal
lengths or either squared norm is `0` (over exact arithmetic the squared norm
vanishes iff the real norm does, iff the vector is all-zero); it never fails
— it is a total function; otherwise it returns the dot product divided by the
product of the two norms (`sqrt` of each squared norm, with the square root
abstract). -/
theorem cosineSimilarity_degenerate_spec (sqrt : ℚ → ℚ) (a b : List ℚ) :
    (a.length ≠ b.length → cosineSimilarity sqrt a b = 0)
    ∧ (sumSq a = 0 → cosineSimilarity sqrt a b = 0)
    ∧ (sumSq b = 0 → cosineSimilarity sqrt a b = 0)
    ∧ (a.length = b.length → sumSq a ≠ 0 → sumSq b ≠ 0 →
        cosineSimilarity sqrt a b
          = (List.zipWith (fun x y => x * y) a b).sum / (sqrt (sumSq a) * sqrt (sumSq b))) := by
  refine ⟨?_, ?_, ?_, ?_⟩
  · intro h
    simp only [cosineSimilarity]
    rw [if_pos h]
  · intro h
    simp only [cosineSimilarity]
    by_cases hl : a.length ≠ b.length
    · rw [if_pos hl]
    · rw [if_neg hl, if_pos (Or.inl (by simpa [sumSq] using h))]
  · intro h
    simp only [cosineSimilarity]
    by_cases hl : a.length ≠ b.length
    · rw [if_pos hl]
    · rw [if_neg hl, if_pos (Or.inr (by simpa [sumSq] using h))]
  · intro hl h1 h2
    simp only [cosineSimilarity, sumSq] at h1 h2 ⊢
    rw [if_neg (by simp [hl]), if_neg (not_or.mpr ⟨h1, h2⟩)]

/-- C4 witness: the concrete degenerate and non-degenerate cases. -/
theorem cosineSimilarity_degenerate_spec_witness :
    cosineSimilarity id [1] [] = 0
    ∧ cosineSimilarity id [] [] = 0
    ∧ cosineSimilarity id [1] [1]
        = (List.zipWith (fun x y => x * y) [(1 : ℚ)] [1]).sum
            / (id (sumSq [1]) * id (sumSq [1])) := by
  refine ⟨(cosineSimilarity_degenerate_spec id [1] []).1 (by decide),
    (cosineSimilarity_degenerate_spec id [] []).2.1 rfl,
    (cosineSimilarity_degenerate_spec id [1] [1]).2.2.2 rfl ?_ ?_⟩
  · intro h
    simp [sumSq] at h
  · intro h
    simp [sumSq] at h

/-- C5: when `chunkText` produces more than one chunk, the chunk contents are
exactly the space-joins of the loop's sentence windows, consecutive windows
overlap as designed — the next window starts with the last
`min 2 (previous window length)` sentences of the previous window, literally
the same sentences (so the shared trailing/leading sentences are textually
identical) — and that seed has length exactly `min 2 (previous window
length)`, bounding the designed sharing. -/
theorem chunkText_overlap_bound (name : String) (text : List Char)
    (h : 1 < (chunkText name text).length) :
    (chunkText name text).map (fun c => c.content) = (chunkWindows text).map joinSp
    ∧ List.Chain' overlapSeeded (chunkWindows text)
    ∧ ∀ w ∈ chunkWindows text, (w.drop (w.length - 2)).length = min 2 w.length := by
  refine ⟨?_, windowLoop_chain _ _, ?_⟩
  · have hlen : ¬(text.length < 1500) := by
      intro hlt
      simp only [chunkText] at h
      rw [if_pos hlt] at h
      simp at h
    simp only [chunkText]
    rw [if_neg hlen, chunkLoop_eq_windowLoop, List.map_map, List.map_map]
    rfl
  · intro w _
    rw [List.length_drop]
    omega

set_option maxRecDepth 100000 in
/-- C5 witness at the concrete 1501-character, three-sentence text, which
produces two chunks. -/
theorem chunkText_overlap_bound_witness :
    (chunkText "doc" wText).map (fun c => c.content) = (chunkWindows wText).map joinSp
    ∧ List.Chain' overlapSeeded (chunkWindows wText)
    ∧ ∀ w ∈ chunkWindows wText, (w.drop (w.length - 2)).length = min 2 w.length :=
  chunkText_overlap_bound "doc" wText (by decide)

/-- C6: `removeBySource s` removes exactly the entries with source `s`
(multiplicity of every other entry is unchanged, entries with source `s` are
gone), keeps the survivors in their original relative order (the result is a
sublist of the store), is a no-op when no entry has source `s`, and
afterwards `getSources` does not contain `s` and no search over the resulting
store returns a chunk with source `s`. -/
theorem removeBySource_spec (st : List EmbeddedChunk) (s : String) :
    (∀ c ∈ VectorStore.removeBySource s st, c.source ≠ s)
    ∧ List.Sublist (VectorStore.removeBySource s st) st
    ∧ (∀ c : EmbeddedChunk,
        (VectorStore.removeBySource s st).count c = if c.source = s then 0 else st.count c)
    ∧ ((∀ c ∈ st, c.source ≠ s) → VectorStore.removeBySource s st = st)
    ∧ s ∉ VectorStore.getSources (VectorStore.removeBySource s st)
    ∧ (∀ (sqrt : ℚ → ℚ) (q : List ℚ) (k : Nat) (r : ScoredChunk),
        r ∈ VectorStore.search sqrt (VectorStore.removeBySource s st) q k → r.source ≠ s) := by
  have hmem : ∀ c ∈ VectorStore.removeBySource s st, c.source ≠ s := by
    intro c hc
    have := (List.mem_filter.mp hc).2
    simpa using this
  refine ⟨hmem, List.filter_sublist st, ?_, ?_, ?_, ?_⟩
  · intro c
    by_cases hcs : c.source = s
    · rw [if_pos hcs]
      refine List.count_eq_zero.mpr ?_
      intro hc
      exact hmem c hc hcs
    · rw [if_neg hcs]
      exact List.count_filter (by simpa using hcs)
  · intro h
    refine List.filter_eq_self.mpr ?_
    intro c hc
    simpa using h c hc
  · intro hs
    rw [mem_getSources] at hs
    obtain ⟨c, hc, he⟩ := List.mem_map.mp hs
    exact hmem c hc he
  · intro sqrt q k r hr
    obtain ⟨c, hc, he⟩ := mem_search hr
    rw [he]
    exact hmem c hc

/-- C7: `embedChunks` on `n` chunks returns, when the provider's batched
responses total exactly `n` vectors, `Except.ok` with `n` embedded chunks
matching the inputs positionally in source and content and carrying the
provider's vector at the same position; when the total differs from `n` it
fails with the mismatch error (no truncation or padding); and a failing
`embedChunks` leaves the store of `handleFileUpload` untouched. -/
theorem embedChunks_alignment (provider : List (List Char) → List (List ℚ))
    (chunks : List DocumentChunk) :
    ((embedBatches provider (chunks.map (fun c => c.content))).length = chunks.length →
      ∃ l, embedChunks provider chunks = Except.ok l
        ∧ l.length = chunks.length
        ∧ l.map (fun e => e.source) = chunks.map (fun c => c.source)
        ∧ l.map (fun e => e.content) = chunks.map (fun c => c.content)
        ∧ l.map (fun e => e.embedding) = embedBatches provider (chunks.map (fun c => c.content)))
    ∧ ((embedBatches provider (chunks.map (fun c => c.content))).length ≠ chunks.length →
        embedChunks provider chunks = Except.error mismatchMsg)
    ∧ (∀ (name : String) (text : List Char) (st : List EmbeddedChunk) (e : String),
        embedChunks provider (chunkText name text) = Except.error e →
        handleFileUpload provider name text st = st) := by
  refine ⟨?_, ?_, ?_⟩
  · intro h
    refine ⟨_, ?_, ?_, zipEmbed_map_source chunks _ h, zipEmbed_map_content chunks _ h,
      zipEmbed_map_embedding chunks _ h⟩
    · simp only [embedChunks]
      rw [if_neg (by simp [h])]
    · rw [List.length_zipWith, h, Nat.min_self]
  · intro h
    simp only [embedChunks]
    rw [if_pos h]
  · intro name text st e he
    by_cases hs : VectorStore.hasSource st name <;> simp [handleFileUpload, hs, he]

/-- C8: `getAnswerFromDocuments` on a store with no sources returns the fixed
no-documents message with zero embedding and zero completion calls; whenever
`search` returns the empty sequence the completion provider is not called and
the answer is one of the two fixed messages; and the inner empty-search
branch is in fact unreachable for a non-empty store, since `search` with
`topK = 5` then returns at least one chunk — so the claim's "non-empty store
but empty search" case holds vacuously. -/
theorem getAnswer_short_circuits (sqrt : ℚ → ℚ) (protoVal : String → List Char)
    (embedProvider : List Char → List ℚ) (completionProvider : List Char → List Char)
    (question : List Char) (st : List EmbeddedChunk) :
    (VectorStore.getSources st = [] →
      getAnswerFromDocuments sqrt protoVal embedProvider completionProvider question st
        = { answer := noDocsMsg.toList, embedCalls := 0, completionCalls := 0 })
    ∧ (VectorStore.search sqrt st (embedProvider question) 5 = [] →
        (getAnswerFromDocuments sqrt protoVal embedProvider completionProvider question st).completionCalls
            = 0
        ∧ ((getAnswerFromDocuments sqrt protoVal embedProvider completionProvider question st).answer
              = noDocsMsg.toList
            ∨ (getAnswerFromDocuments sqrt protoVal embedProvider completionProvider question st).answer
              = noMatchMsg.toList))
    ∧ (st ≠ [] → VectorStore.search sqrt st (embedProvider question) 5 ≠ []) := by
  have hreach : st ≠ [] → VectorStore.search sqrt st (embedProvider question) 5 ≠ [] := by
    intro hne hempty
    have hl := search_length sqrt st (embedProvider question) 5
    rw [hempty] at hl
    have : st.length ≠ 0 := fun h0 => hne (List.length_eq_zero.mp h0)
    simp only [List.length_nil] at hl
    omega
  refine ⟨?_, ?_, hreach⟩
  · intro h
    simp only [getAnswerFromDocuments]
    rw [if_pos (by simp [h])]
  · intro h
    cases hst : st with
    | nil =>
      subst hst
      exact ⟨rfl, Or.inl rfl⟩
    | cons c cs =>
      exact absurd h (hreach (by simp [hst]))

/-- C9 (amended): provided no source name is a canonical ECMAScript
array-index string (digits only, canonical form, below 2^32 − 1) and no
source name collides with an `Object.prototype` member (`toString`,
`constructor`, …, or the `__proto__` accessor), `buildPrompt` groups the
chunks by source in first-encounter order, each group holding that source's
chunk contents in the order given, each followed by two newlines, rendered
as 1-based numbered reference blocks with the literal source name inside the
fixed template — i.e. it equals the spec-modelled `specBuildPrompt`, for
every engine string-coercion `protoVal` of inherited members; determinism is
immediate since the model is a pure function of the inputs.  (With
array-index source names, JS object key ordering puts those groups first in
ascending numeric order instead — see the counterexample; a source named
like an inherited `Object.prototype` member gets that member's string
coercion prepended to its group, and a source named `__proto__` is dropped
entirely — see `ctxStep_inherited` and `ctxStep_proto`.) -/
theorem buildPrompt_grouping_amended (protoVal : String → List Char) (question : List Char)
    (chunks : List DocumentChunk)
    (h : ∀ c ∈ chunks,
      isArrayIndexKey c.source = false ∧ isPlainSourceKey c.source = true) :
    buildPrompt protoVal question chunks = specBuildPrompt question chunks := by
  show promptHead.toList ++ renderBlocks 0 (jsEntries (contextBySource protoVal chunks))
        ++ promptMid.toList ++ question ++ promptTail.toList
      = promptHead.toList
        ++ renderBlocks 0 ((specSources chunks).map (fun s => (s, specGroupContent chunks s)))
        ++ promptMid.toList ++ question ++ promptTail.toList
  rw [contextBySource_spec protoVal chunks (fun c hc => (h c hc).2)]
  rw [jsEntries_of_no_index]
  intro p hp
  obtain ⟨s, hs, he⟩ := List.mem_map.mp hp
  have : s ∈ chunks.map (fun c => c.source) := by
    have := (mem_insertionDedup _ _ _).mp hs
    exact this.1
  obtain ⟨c, hc, hcs⟩ := List.mem_map.mp this
  rw [← he]
  simp only []
  rw [← hcs]
  exact (h c hc).1

/-- C9 witness: two ordinary source names (neither array-index strings nor
`Object.prototype` members), first-encounter grouping holds. -/
theorem buildPrompt_grouping_amended_witness :
    buildPrompt (fun _ => []) ['q']
        [{ source := "d1", content := ['x'] }, { source := "d2", content := ['y'] }]
      = specBuildPrompt ['q']
          [{ source := "d1", content := ['x'] }, { source := "d2", content := ['y'] }] :=
  buildPrompt_grouping_amended (fun _ => []) ['q']
    [{ source := "d1", content := ['x'] }, { source := "d2", content := ['y'] }] (by decide)

set_option maxRecDepth 100000 in
/-- C9 counterexample: with source names `"1"` then `"0"` — canonical JS
array-index keys — `Object.entries` yields the groups in ascending numeric
key order, not first-encounter order, so the built prompt differs from the
first-encounter rendering the claim asserts (here at the engine coercion
`protoVal = fun _ => []`, which these keys never consult). -/
theorem buildPrompt_group_order_counterexample :
    buildPrompt (fun _ => []) []
        [{ source := "1", content := ['a'] }, { source := "0", content := ['b'] }]
      ≠ specBuildPrompt []
          [{ source := "1", content := ['a'] }, { source := "0", content := ['b'] }] := by
  decide

/-- C10: the `search` method reads but never writes the store: the post-state
equals the pre-state (the scored array it sorts is a fresh `map` copy), so
`getSources` and any later `search` on the store give the same results as
before, and the returned ranking is exactly `VectorStore.search`. -/
theorem search_preserves_store (sqrt : ℚ → ℚ) (st : List EmbeddedChunk) (q : List ℚ)
    (topK : Nat) :
    (VectorStore.searchM sqrt st q topK).2 = st
    ∧ VectorStore.getSources (VectorStore.searchM sqrt st q topK).2 = VectorStore.getSources st
    ∧ (∀ (sqrt2 : ℚ → ℚ) (q2 : List ℚ) (k2 : Nat),
        VectorStore.search sqrt2 (VectorStore.searchM sqrt st q topK).2 q2 k2
          = VectorStore.search sqrt2 st q2 k2)
    ∧ (VectorStore.searchM sqrt st q topK).1 = VectorStore.search sqrt st q topK :=
  ⟨rfl, rfl, fun _ _ _ => rfl, rfl⟩
